import Mathlib

/-!
Verification development for the 5G RAN scheduling demo (`ran_demo.py`).

The repository contains three independent timeslot simulators:

* `simulate_das`   — Delay-Aware Scheduling over per-user packet queues;
* `simulate_csi_smoothing` — opportunistic scheduling with EWMA CSI smoothing;
* `simulate_fragmentation_aware` — greedy multi-fragment spectrum allocation.

The embedding below translates the Python functions into pure Lean
functions.  Stochastic draws (`np.random.*`, `random.*`) are passed in
explicitly as draw streams indexed by slot and user id; Python floats are
modelled as rationals; integer draws `np.random.randint(a, b)` are modelled
as `a + raw % (b - a)` over a natural-number stream, which captures exactly
the support of the distribution.  `np.mean` over an empty array yields NaN
in numpy; NaN-able aggregates are therefore modelled as `Option ℚ` with
`none` standing for NaN.  A Python `list` of dataclasses mutated in place is
modelled as a Lean `List` threaded through the per-slot steps; dictionary
keys (`user.id`) coincide with list positions in every reachable state, so
positional update (`List.set`) models the in-place mutation.
-/

namespace RanDemo

/-- Python slice `l[-n:]`: the last `n` elements (the whole list when it is
shorter than `n`). -/
def lastN (n : ℕ) (l : List ℚ) : List ℚ := l.drop (l.length - n)

/-- numpy `np.mean` over a list of floats; on an empty array numpy emits a
warning and returns NaN, modelled here as `none`. -/
def npMean (l : List ℚ) : Option ℚ :=
  if l.isEmpty then none else some (l.sum / (l.length : ℚ))

/-- Tail worker for `firstArgmax`: `i` is the index of the head of the
remaining list, `bi`/`bv` the index and value of the best element so far.
Python's `max` replaces the current best only on a strictly greater value. -/
def argmaxGo (i bi : ℕ) (bv : ℚ) : List ℚ → ℕ
  | [] => bi
  | v :: vs => if bv < v then argmaxGo (i + 1) i v vs else argmaxGo (i + 1) bi bv vs

/-- Index of the first maximal element of a list, as computed by Python's
`max` over values in iteration order (`none` on the empty list, where Python
raises `ValueError`). -/
def firstArgmax : List ℚ → Option ℕ
  | [] => none
  | v :: vs => some (argmaxGo 1 0 v vs)

theorem argmaxGo_lt (vs : List ℚ) : ∀ (i bi : ℕ) (bv : ℚ) (n : ℕ),
    bi < n → i + vs.length ≤ n → argmaxGo i bi bv vs < n := by
  induction vs with
  | nil => intro i bi bv n hb _; simpa [argmaxGo] using hb
  | cons v vs ih =>
      intro i bi bv n hb hlen
      simp only [List.length_cons] at hlen
      simp only [argmaxGo]
      by_cases h : bv < v
      · simp only [h, if_true]
        exact ih (i + 1) i v n (by omega) (by omega)
      · simp only [h, if_false]
        exact ih (i + 1) bi bv n hb (by omega)

theorem firstArgmax_lt {l : List ℚ} {i : ℕ} (h : firstArgmax l = some i) :
    i < l.length := by
  cases l with
  | nil => simp [firstArgmax] at h
  | cons v vs =>
      simp only [firstArgmax, Option.some.injEq] at h
      subst h
      simp only [List.length_cons]
      exact argmaxGo_lt vs 1 0 v (vs.length + 1) (by omega) (by omega)

theorem firstArgmax_isSome {l : List ℚ} (h : l ≠ []) : (firstArgmax l).isSome := by
  cases l with
  | nil => exact absurd rfl h
  | cons v vs => simp [firstArgmax]

/-! ## Solution 1: Delay-Aware Scheduling (`simulate_das`) -/

/-- Service classes of the demo. -/
inductive SClass where
  | URLLC
  | eMBB
  | mMTC
deriving DecidableEq, Repr

/-- A queued packet: `{'remaining_time': int, 'size': float}`. -/
structure Packet where
  remaining_time : ℤ
  size : ℚ
deriving DecidableEq, Repr

/-- The `User` dataclass together with the per-user bookkeeping dictionaries
`timeouts`, `total_packets` and `delays` of `simulate_das` (which are keyed by
`user.id`, and ids equal list positions). -/
structure UserSt where
  id : ℕ
  service_type : SClass
  instantaneous_rate : ℚ
  avg_throughput : ℚ
  packets : List Packet
  pdb : ℕ
  timeouts : ℕ
  totalPackets : ℕ
  delays : List ℤ
deriving DecidableEq, Repr

/-- The stream of random draws consumed by `simulate_das`, indexed by the
consuming site: `initRate i` is `np.random.uniform(5, 20)` for user `i` at
initialisation; per slot `s` and user `i`, `arrive s i` is the Bernoulli
outcome `np.random.random() < 0.3`, `pktSize s i` the packet size
`np.random.uniform(1, 5)`, and `chStep s i` the channel increment
`np.random.normal(0, 2)`.  Seeding the process generator fixes this whole
stream. -/
structure DasDraws where
  initRate : ℕ → ℚ
  arrive : ℕ → ℕ → Bool
  pktSize : ℕ → ℕ → ℚ
  chStep : ℕ → ℕ → ℚ

/-- User initialisation: indices 0–4 are URLLC (pdb 5), 5–9 eMBB (pdb 20),
the rest mMTC (pdb 50); `avg_throughput` starts at 10.0 and the queue empty. -/
def dasInitUser (d : DasDraws) (i : ℕ) : UserSt :=
  let sc : SClass × ℕ :=
    if i < 5 then (SClass.URLLC, 5)
    else if i < 10 then (SClass.eMBB, 20)
    else (SClass.mMTC, 50)
  { id := i
    service_type := sc.1
    instantaneous_rate := d.initRate i
    avg_throughput := 10
    packets := []
    pdb := sc.2
    timeouts := 0
    totalPackets := 0
    delays := [] }

/-- Arrival phase: each user receives a packet of the drawn size with the
drawn Bernoulli outcome; `remaining_time` starts at the user's pdb and
`total_packets` is incremented. -/
def arrivalStep (arr : ℕ → Bool) (sz : ℕ → ℚ) (us : List UserSt) : List UserSt :=
  us.map fun u =>
    if arr u.id then
      { u with
        packets := u.packets ++ [{ remaining_time := (u.pdb : ℤ), size := sz u.id }]
        totalPackets := u.totalPackets + 1 }
    else u

/-- Aging phase: every queued packet's `remaining_time` drops by 1. -/
def ageStep (us : List UserSt) : List UserSt :=
  us.map fun u =>
    { u with packets := u.packets.map fun p => { p with remaining_time := p.remaining_time - 1 } }

/-- `W1`: delay-criticality over the user's buffer, summing
`(size/total_buffer) * max 0 (1 - rt/pdb)` over packets with positive
remaining time (0 on an empty or zero-size buffer). -/
def dasW1 (u : UserSt) : ℚ :=
  let total := (u.packets.map Packet.size).sum
  if 0 < total then
    (u.packets.map fun p =>
      if 0 < p.remaining_time then
        p.size / total * max 0 (1 - (p.remaining_time : ℚ) / (u.pdb : ℚ))
      else 0).sum
  else 0

/-- `W2`: the proportional-fair metric `instantaneous_rate / max(avg, 0.001)`. -/
def dasW2 (u : UserSt) : ℚ := u.instantaneous_rate / max u.avg_throughput (1 / 1000)

/-- Combined priority `beta*W1 + (1-beta)*W2`. -/
def dasPriority (beta : ℚ) (u : UserSt) : ℚ := beta * dasW1 u + (1 - beta) * dasW2 u

/-- Per-slot record of what the selection phase did: the bytes added to this
slot's throughput, the position of the user whose head-of-queue packet was
popped (if any) and that packet's `remaining_time` at the pop. -/
structure SlotLog where
  transmitted_bytes : ℚ
  txUser : Option ℕ
  txRemaining : Option ℤ
deriving DecidableEq, Repr

/-- Serve the selected user `si`: if its queue is non-empty, pop the oldest
packet, record its delay `pdb - remaining_time`, and EWMA-update the user's
`avg_throughput` with weight 0.1 on the popped size. -/
def transmitStep (us : List UserSt) (si : ℕ) : List UserSt × SlotLog :=
  match us.get? si with
  | none => (us, { transmitted_bytes := 0, txUser := none, txRemaining := none })
  | some u =>
    match u.packets with
    | [] => (us, { transmitted_bytes := 0, txUser := none, txRemaining := none })
    | p :: rest =>
      (us.set si
        { u with
          packets := rest
          delays := u.delays ++ [(u.pdb : ℤ) - p.remaining_time]
          avg_throughput := 9 / 10 * u.avg_throughput + 1 / 10 * p.size },
       { transmitted_bytes := p.size, txUser := some si, txRemaining := some p.remaining_time })

/-- Timeout sweep for one user: packets with `remaining_time ≤ 0` are counted
into `timeouts` and removed. -/
def sweepUser (u : UserSt) : UserSt :=
  { u with
    timeouts := u.timeouts + (u.packets.filter fun p => p.remaining_time ≤ 0).length
    packets := u.packets.filter fun p => 0 < p.remaining_time }

/-- Timeout sweep over all users. -/
def sweepStep (us : List UserSt) : List UserSt := us.map sweepUser

/-- Channel evolution: bounded random walk floored at 1.0. -/
def channelStep (st : ℕ → ℚ) (us : List UserSt) : List UserSt :=
  us.map fun u => { u with instantaneous_rate := max 1 (u.instantaneous_rate + st u.id) }

/-- Selection and service: pick the first maximal-priority user (Python
`max` over the priorities dict in insertion order; the dict is empty exactly
when there are no users, in which case nothing is served) and serve it. -/
def dasSelect (beta : ℚ) (us2 : List UserSt) : List UserSt × SlotLog :=
  match firstArgmax (us2.map (dasPriority beta)) with
  | none => (us2, { transmitted_bytes := 0, txUser := none, txRemaining := none })
  | some si => transmitStep us2 si

/-- One slot of `simulate_das`: arrivals, aging, priority computation and
selection, service, timeout sweep, channel walk. -/
def dasSlot (beta : ℚ) (arr : ℕ → Bool) (sz : ℕ → ℚ) (st : ℕ → ℚ) (us : List UserSt) :
    List UserSt × SlotLog :=
  let tr := dasSelect beta (ageStep (arrivalStep arr sz us))
  (channelStep st (sweepStep tr.1), tr.2)

/-- The main loop of `simulate_das`: fold the slots, appending each slot's
transmitted bytes to the throughput history. -/
def dasRun (beta : ℚ) (d : DasDraws) (numSlots numUsers : ℕ) : List UserSt × List ℚ :=
  (List.range numSlots).foldl
    (fun acc slot =>
      let r := dasSlot beta (d.arrive slot) (d.pktSize slot) (d.chStep slot) acc.1
      (r.1, acc.2 ++ [r.2.transmitted_bytes]))
    ((List.range numUsers).map (dasInitUser d), [])

/-- Return value of `simulate_das`. -/
structure DasResult where
  urllc_timeout_rate : ℚ
  avg_urllc_delay : ℚ
  avg_throughput : ℚ
  throughput_history : List ℚ
deriving DecidableEq, Repr

/-- `simulate_das`: run the slots and aggregate.  The timeout rate divides by
`max(total URLLC packets, 1)`; the mean URLLC delay and the mean throughput
are guarded against empty lists exactly as in the source
(`np.mean(...) if ... else 0.0`); the history is truncated to the last 50. -/
def simulate_das (beta : ℚ) (numSlots numUsers : ℕ) (d : DasDraws) : DasResult :=
  let r := dasRun beta d numSlots numUsers
  let urllc := r.1.filter fun u => u.service_type == SClass.URLLC
  let tSum : ℕ := (urllc.map UserSt.timeouts).sum
  let pSum : ℕ := (urllc.map UserSt.totalPackets).sum
  let urllcDelays : List ℤ := (urllc.map UserSt.delays).flatten
  { urllc_timeout_rate := (tSum : ℚ) / ((max pSum 1 : ℕ) : ℚ) * 100
    avg_urllc_delay :=
      if urllcDelays.isEmpty then 0
      else (urllcDelays.map fun z => (z : ℚ)).sum / (urllcDelays.length : ℚ)
    avg_throughput := if r.2.isEmpty then 0 else r.2.sum / (r.2.length : ℚ)
    throughput_history := lastN 50 r.2 }

/-- `simulate_pf`: the designated proportional-fair baseline, delegating to
`simulate_das` with `beta = 0`. -/
def simulate_pf (numSlots numUsers : ℕ) (d : DasDraws) : DasResult :=
  simulate_das 0 numSlots numUsers d

/-- All-zero draw stream (used to instantiate universally quantified
theorems at a concrete input). -/
def dasZeroDraws : DasDraws :=
  { initRate := fun _ => 0
    arrive := fun _ _ => false
    pktSize := fun _ _ => 0
    chStep := fun _ _ => 0 }

/-- C2: `simulate_pf(num_slots=N, num_users=U, seed=S)` agrees field-for-field
(all scalar aggregates and the throughput history) with
`simulate_das(beta=0, num_slots=N, num_users=U, seed=S)` on the draw stream
the seed determines. -/
theorem pf_eq_das_beta_zero (numSlots numUsers : ℕ) (d : DasDraws) :
    simulate_pf numSlots numUsers d = simulate_das 0 numSlots numUsers d ∧
    (simulate_pf numSlots numUsers d).urllc_timeout_rate
      = (simulate_das 0 numSlots numUsers d).urllc_timeout_rate ∧
    (simulate_pf numSlots numUsers d).avg_urllc_delay
      = (simulate_das 0 numSlots numUsers d).avg_urllc_delay ∧
    (simulate_pf numSlots numUsers d).avg_throughput
      = (simulate_das 0 numSlots numUsers d).avg_throughput ∧
    (simulate_pf numSlots numUsers d).throughput_history
      = (simulate_das 0 numSlots numUsers d).throughput_history :=
  ⟨rfl, rfl, rfl, rfl, rfl⟩

/-- C5: `simulate_das` is deterministic under seeding: two invocations with
the same beta, slot count, user count, and draw streams obtained from the
same seed (hence equal, since seeding fixes the generator's stream) return
identical results, in particular identical `throughput_history`. -/
theorem das_deterministic (beta : ℚ) (numSlots numUsers : ℕ) (d₁ d₂ : DasDraws)
    (h : d₁ = d₂) :
    simulate_das beta numSlots numUsers d₁ = simulate_das beta numSlots numUsers d₂ ∧
    (simulate_das beta numSlots numUsers d₁).throughput_history
      = (simulate_das beta numSlots numUsers d₂).throughput_history := by
  subst h; exact ⟨rfl, rfl⟩

/-- Witness for C5 at a concrete seed-determined stream. -/
theorem das_deterministic_witness :
    dasZeroDraws = dasZeroDraws ∧
    (simulate_das (7/10) 3 2 dasZeroDraws = simulate_das (7/10) 3 2 dasZeroDraws ∧
     (simulate_das (7/10) 3 2 dasZeroDraws).throughput_history
       = (simulate_das (7/10) 3 2 dasZeroDraws).throughput_history) :=
  ⟨rfl, das_deterministic (7/10) 3 2 dasZeroDraws dasZeroDraws rfl⟩

/-! ## Solution 2: Opportunistic Scheduling with CSI Smoothing
(`simulate_csi_smoothing`) -/

/-- A CSI user dict: mobility class (`true` = 'high'), true/reported/smoothed
CQI, average throughput and the two transmission counters. -/
structure CsiUser where
  id : ℕ
  mobility : Bool
  true_cqi : ℚ
  reported_cqi : ℚ
  smoothed_cqi : ℚ
  avg_throughput : ℚ
  retransmissions : ℕ
  successful_tx : ℕ
deriving DecidableEq, Repr

/-- Draw stream of `simulate_csi_smoothing` per slot `s` and user `i`:
`cqiStep s i` is `np.random.normal(0, change_rate)`, `noise s i` the
measurement noise, and `bern s` the uniform sample compared against the
success probability. -/
structure CsiDraws where
  cqiStep : ℕ → ℕ → ℚ
  noise : ℕ → ℕ → ℚ
  bern : ℕ → ℚ

/-- CSI user initialisation: users 0–4 are high-mobility; all CQIs start at
10.0, `avg_throughput` at 5.0, both counters at 0. -/
def csiInitUser (i : ℕ) : CsiUser :=
  { id := i
    mobility := i < 5
    true_cqi := 10
    reported_cqi := 10
    smoothed_cqi := 10
    avg_throughput := 5
    retransmissions := 0
    successful_tx := 0 }

/-- Channel phase of a CSI slot: random-walk the true CQI (floored at 1), add
measurement noise (floored at 1), and EWMA-smooth with weight `alpha`. -/
def csiChannelStep (alpha : ℚ) (cs ns : ℕ → ℚ) (us : List CsiUser) : List CsiUser :=
  us.map fun u =>
    let t := max 1 (u.true_cqi + cs u.id)
    let r := max 1 (t + ns u.id)
    { u with
      true_cqi := t
      reported_cqi := r
      smoothed_cqi := alpha * r + (1 - alpha) * u.smoothed_cqi }

/-- Scheduling metric `smoothed_cqi / max(avg_throughput, 0.1)`. -/
def csiMetric (u : CsiUser) : ℚ := u.smoothed_cqi / max u.avg_throughput (1 / 10)

/-- `total_tx = sum(u['successful_tx'] + u['retransmissions'] for u in users)`. -/
def csiTotalTx (us : List CsiUser) : ℕ :=
  (us.map fun u => u.successful_tx + u.retransmissions).sum

/-- `sum(u['retransmissions'] for u in users)`. -/
def csiRetransSum (us : List CsiUser) : ℕ := (us.map CsiUser.retransmissions).sum

/-- One slot of `simulate_csi_smoothing`: channel update, selection of the
first maximal-metric user (Python `max(users, key=...)`, which raises
`ValueError` on an empty user list — modelled as `none`), a Bernoulli
transmission trial, and the two per-slot metric samples (cumulative
retransmission rate, mean smoothed CQI). -/
def csiSlot (alpha : ℚ) (cs ns : ℕ → ℚ) (b : ℚ) (us : List CsiUser) :
    Option (List CsiUser × ℚ × ℚ) :=
  let us1 := csiChannelStep alpha cs ns us
  match firstArgmax (us1.map csiMetric) with
  | none => none
  | some si =>
    match us1.get? si with
    | none => none
    | some u =>
      let cqi_error := |u.smoothed_cqi - u.true_cqi|
      let success_prob := max (1 / 2) (1 - cqi_error / 10)
      let us2 :=
        if b < success_prob then
          us1.set si
            { u with
              successful_tx := u.successful_tx + 1
              avg_throughput := 9 / 10 * u.avg_throughput + 1 / 10 * u.smoothed_cqi }
        else
          us1.set si { u with retransmissions := u.retransmissions + 1 }
      let rr := (csiRetransSum us2 : ℚ) / ((max (csiTotalTx us2) 1 : ℕ) : ℚ) * 100
      let se := (us2.map CsiUser.smoothed_cqi).sum / (us2.length : ℚ)
      some (us2, rr, se)

/-- The main loop of `simulate_csi_smoothing`, threading the users and the
two per-slot metric histories (retransmission rates, spectral-efficiency
samples); `none` models the run raising. -/
def csiRun (alpha : ℚ) (d : CsiDraws) (numSlots numUsers : ℕ) :
    Option (List CsiUser × List ℚ × List ℚ) :=
  (List.range numSlots).foldl
    (fun acc slot =>
      match acc with
      | none => none
      | some (us, rrh, seh) =>
        match csiSlot alpha (d.cqiStep slot) (d.noise slot) (d.bern slot) us with
        | none => none
        | some (us', rr, se) => some (us', rrh ++ [rr], seh ++ [se]))
    (some ((List.range numUsers).map csiInitUser, [], []))

/-- Return value of `simulate_csi_smoothing`; the two scalar aggregates are
`np.mean` of the per-slot series and hence NaN (`none`) when no slot ran. -/
structure CsiResult where
  spectral_efficiency : Option ℚ
  retransmission_rate : Option ℚ
  se_history : List ℚ
  retrans_history : List ℚ
deriving DecidableEq, Repr

/-- `simulate_csi_smoothing` (outer `none` models the `ValueError` from
`max` on an empty user list). -/
def simulate_csi_smoothing (alpha : ℚ) (numSlots numUsers : ℕ) (d : CsiDraws) :
    Option CsiResult :=
  match csiRun alpha d numSlots numUsers with
  | none => none
  | some (_, rrh, seh) =>
    some
      { spectral_efficiency := npMean seh
        retransmission_rate := npMean rrh
        se_history := lastN 50 seh
        retrans_history := lastN 50 rrh }

/-- All-zero CSI draw stream. -/
def csiZeroDraws : CsiDraws :=
  { cqiStep := fun _ _ => 0, noise := fun _ _ => 0, bern := fun _ => 0 }

/-! ### Invariants of the CSI loop -/

theorem sum_map_set {α : Type} (f : α → ℕ) :
    ∀ (l : List α) (i : ℕ) (a : α) (h : i < l.length),
      ((l.set i a).map f).sum + f (l.get ⟨i, h⟩) = (l.map f).sum + f a := by
  intro l
  induction l with
  | nil => intro i a h; simp at h
  | cons x xs ih =>
      intro i a h
      cases i with
      | zero => simp [List.set_cons_zero]; omega
      | succ n =>
          simp only [List.set_cons_succ, List.map_cons, List.sum_cons, List.get_cons_succ]
          have := ih n a (by simpa using h)
          omega

theorem csiRetransSum_le_totalTx (us : List CsiUser) : csiRetransSum us ≤ csiTotalTx us := by
  unfold csiRetransSum csiTotalTx
  exact List.sum_le_sum fun u _ => Nat.le_add_left u.retransmissions u.successful_tx

theorem ratePct_bounds (R T : ℕ) (h : R ≤ T) :
    0 ≤ (R : ℚ) / ((max T 1 : ℕ) : ℚ) * 100 ∧ (R : ℚ) / ((max T 1 : ℕ) : ℚ) * 100 ≤ 100 := by
  have hM : (1 : ℚ) ≤ ((max T 1 : ℕ) : ℚ) := by exact_mod_cast Nat.le_max_right T 1
  have hRM : (R : ℚ) ≤ ((max T 1 : ℕ) : ℚ) := by
    exact_mod_cast le_trans h (Nat.le_max_left T 1)
  have hpos : (0 : ℚ) < ((max T 1 : ℕ) : ℚ) := lt_of_lt_of_le one_pos hM
  constructor
  · positivity
  · have h1 : (R : ℚ) / ((max T 1 : ℕ) : ℚ) ≤ 1 := div_le_one_of_le₀ hRM (le_of_lt hpos)
    calc (R : ℚ) / ((max T 1 : ℕ) : ℚ) * 100 ≤ 1 * 100 := by
          exact mul_le_mul_of_nonneg_right h1 (by norm_num)
      _ = 100 := by norm_num

theorem csiChannelStep_totalTx (alpha : ℚ) (cs ns : ℕ → ℚ) (us : List CsiUser) :
    csiTotalTx (csiChannelStep alpha cs ns us) = csiTotalTx us := by
  unfold csiTotalTx csiChannelStep
  rw [List.map_map]
  rfl

theorem csiChannelStep_length (alpha : ℚ) (cs ns : ℕ → ℚ) (us : List CsiUser) :
    (csiChannelStep alpha cs ns us).length = us.length := by
  simp [csiChannelStep]

/-- Characterisation of a successful CSI slot: it exists whenever there is at
least one user, it preserves the user count, it increments exactly one
transmission counter (so `total_tx` grows by exactly 1), and the emitted
retransmission-rate sample is `retransSum / max(total_tx, 1) * 100`. -/
theorem csiSlot_spec (alpha : ℚ) (cs ns : ℕ → ℚ) (b : ℚ) (us : List CsiUser)
    (h : us ≠ []) :
    ∃ us' rr se, csiSlot alpha cs ns b us = some (us', rr, se) ∧
      us'.length = us.length ∧
      csiTotalTx us' = csiTotalTx us + 1 ∧
      rr = (csiRetransSum us' : ℚ) / ((max (csiTotalTx us') 1 : ℕ) : ℚ) * 100 := by
  have hne : (csiChannelStep alpha cs ns us).map csiMetric ≠ [] := by
    simp only [ne_eq, List.map_eq_nil_iff]
    intro hc
    exact h (by simpa [csiChannelStep, List.map_eq_nil_iff] using hc)
  obtain ⟨si, hsi⟩ := Option.isSome_iff_exists.mp (firstArgmax_isSome hne)
  have hlt : si < (csiChannelStep alpha cs ns us).length := by
    have := firstArgmax_lt hsi
    simpa using this
  have hget : (csiChannelStep alpha cs ns us).get? si
      = some ((csiChannelStep alpha cs ns us).get ⟨si, hlt⟩) := List.get?_eq_get hlt
  simp only [csiSlot]
  rw [hsi]
  dsimp only
  rw [hget]
  dsimp only
  by_cases hb : b < max (1 / 2)
      (1 - |((csiChannelStep alpha cs ns us).get ⟨si, hlt⟩).smoothed_cqi
            - ((csiChannelStep alpha cs ns us).get ⟨si, hlt⟩).true_cqi| / 10)
  · rw [if_pos hb]
    refine ⟨_, _, _, rfl, ?_, ?_, rfl⟩
    · simp [csiChannelStep]
    · have hs := sum_map_set (fun v => v.successful_tx + v.retransmissions)
        (csiChannelStep alpha cs ns us) si
        { (csiChannelStep alpha cs ns us).get ⟨si, hlt⟩ with
          successful_tx := ((csiChannelStep alpha cs ns us).get ⟨si, hlt⟩).successful_tx + 1
          avg_throughput :=
            9 / 10 * ((csiChannelStep alpha cs ns us).get ⟨si, hlt⟩).avg_throughput
              + 1 / 10 * ((csiChannelStep alpha cs ns us).get ⟨si, hlt⟩).smoothed_cqi } hlt
      have htot : csiTotalTx (csiChannelStep alpha cs ns us) = csiTotalTx us :=
        csiChannelStep_totalTx alpha cs ns us
      unfold csiTotalTx at *
      dsimp only at hs ⊢
      omega
  · rw [if_neg hb]
    refine ⟨_, _, _, rfl, ?_, ?_, rfl⟩
    · simp [csiChannelStep]
    · have hs := sum_map_set (fun v => v.successful_tx + v.retransmissions)
        (csiChannelStep alpha cs ns us) si
        { (csiChannelStep alpha cs ns us).get ⟨si, hlt⟩ with
          retransmissions := ((csiChannelStep alpha cs ns us).get ⟨si, hlt⟩).retransmissions + 1 }
        hlt
      have htot : csiTotalTx (csiChannelStep alpha cs ns us) = csiTotalTx us :=
        csiChannelStep_totalTx alpha cs ns us
      unfold csiTotalTx at *
      dsimp only at hs ⊢
      omega

/-- Master invariant of the CSI loop: with at least one user the run never
raises, the user count is preserved, `total_tx` equals the number of
completed slots, the two histories grow by one sample per slot, and every
retransmission-rate sample lies in [0, 100]. -/
theorem csiRun_spec (alpha : ℚ) (d : CsiDraws) (numUsers : ℕ) (hu : 1 ≤ numUsers) :
    ∀ numSlots : ℕ, ∃ us rrh seh,
      csiRun alpha d numSlots numUsers = some (us, rrh, seh) ∧
      us.length = numUsers ∧
      csiTotalTx us = numSlots ∧
      rrh.length = numSlots ∧
      seh.length = numSlots ∧
      ∀ r ∈ rrh, 0 ≤ r ∧ r ≤ 100 := by
  intro numSlots
  induction numSlots with
  | zero =>
      refine ⟨_, _, _, rfl, by simp, ?_, rfl, rfl, by intro r hr; simp at hr⟩
      simp [csiTotalTx, csiInitUser, List.map_map, Function.comp_def]
  | succ n ih =>
      obtain ⟨us, rrh, seh, hrun, hlen, htot, hrl, hsl, hb⟩ := ih
      have hne : us ≠ [] := by
        intro hc
        rw [hc] at hlen
        simp at hlen
        omega
      obtain ⟨us', rr, se, hslot, hlen', htot', hrr⟩ :=
        csiSlot_spec alpha (d.cqiStep n) (d.noise n) (d.bern n) us hne
      have hstep : csiRun alpha d (n + 1) numUsers = some (us', rrh ++ [rr], seh ++ [se]) := by
        unfold csiRun at hrun ⊢
        rw [List.range_succ, List.foldl_append, hrun]
        simp only [List.foldl_cons, List.foldl_nil]
        rw [hslot]
      refine ⟨us', rrh ++ [rr], seh ++ [se], hstep, by omega, by omega, by simp [hrl],
        by simp [hsl], ?_⟩
      intro r hr
      rcases List.mem_append.mp hr with hr | hr
      · exact hb r hr
      · have : r = rr := by simpa using hr
        subst this
        rw [hrr]
        exact ratePct_bounds _ _ (csiRetransSum_le_totalTx us')

/-- C10: `simulate_csi_smoothing` increments exactly one user's
`successful_tx` or `retransmissions` counter by 1 per slot, so after `t`
completed slots the sum over all users of `successful_tx + retransmissions`
equals `t`; hence in every completed slot the count denominator
`max(total_tx, 1)` equals `total_tx ≥ 1` (instantiate `t` at that slot's
index) and every per-slot retransmission-rate sample is a well-defined
value in [0, 100]. -/
theorem csi_counter_invariant (alpha : ℚ) (d : CsiDraws) (t numUsers : ℕ)
    (hu : 1 ≤ numUsers) :
    ∃ us rrh seh, csiRun alpha d t numUsers = some (us, rrh, seh) ∧
      csiTotalTx us = t ∧
      (1 ≤ t → max (csiTotalTx us) 1 = csiTotalTx us ∧ 1 ≤ csiTotalTx us) ∧
      ∀ r ∈ rrh, 0 ≤ r ∧ r ≤ 100 := by
  obtain ⟨us, rrh, seh, hrun, _, htot, _, _, hb⟩ := csiRun_spec alpha d numUsers hu t
  exact ⟨us, rrh, seh, hrun, htot, fun ht => ⟨by omega, by omega⟩, hb⟩

/-- Witness for C10 at `alpha = 1/5`, two slots, one user, zero draws. -/
theorem csi_counter_invariant_witness :
    1 ≤ 1 ∧
    ∃ us rrh seh, csiRun (1 / 5) csiZeroDraws 2 1 = some (us, rrh, seh) ∧
      csiTotalTx us = 2 ∧
      (1 ≤ 2 → max (csiTotalTx us) 1 = csiTotalTx us ∧ 1 ≤ csiTotalTx us) ∧
      ∀ r ∈ rrh, 0 ≤ r ∧ r ≤ 100 :=
  ⟨le_refl 1, csi_counter_invariant (1 / 5) csiZeroDraws 2 1 (le_refl 1)⟩

/-! ## Solution 3: Hierarchical Fragmentation-Aware Scheduling
(`simulate_fragmentation_aware`) -/

/-- A spectrum fragment dict; `id` is also the fragment's position in the
fragment list, through which in-place capacity mutation is modelled. -/
structure Fragment where
  id : ℕ
  capacity : ℤ
  center_freq : ℤ
deriving DecidableEq, Repr

/-- The four fixed fragments of `simulate_fragmentation_aware`. -/
def initFragments : List Fragment :=
  [{ id := 0, capacity := 50, center_freq := 3500 },
   { id := 1, capacity := 40, center_freq := 3600 },
   { id := 2, capacity := 30, center_freq := 3800 },
   { id := 3, capacity := 35, center_freq := 2600 }]

/-- A per-slot FRAG user dict. -/
structure FragUser where
  id : ℕ
  service_type : SClass
  demand : ℤ
  deadline : ℤ
  weight : ℚ
  allocated : ℤ
deriving DecidableEq, Repr

/-- Draw streams for `simulate_fragmentation_aware`: raw natural-number
draws per slot and user, mapped below onto `np.random.randint(a, b)` as
`a + raw % (b - a)`, which has exactly the support `[a, b)`. -/
structure FragDraws where
  demandRaw : ℕ → ℕ → ℕ
  deadlineRaw : ℕ → ℕ → ℕ

/-- Fresh per-slot user generation: users 0–3 URLLC (demand `randint(5,15)`,
deadline `randint(3,6)`, weight 10), 4–7 eMBB (demand `randint(15,30)`,
deadline `randint(10,20)`, weight 5), 8–11 mMTC (demand `randint(3,10)`,
deadline `randint(30,50)`, weight 1); `allocated` starts at 0. -/
def mkFragUser (dem dl : ℕ → ℕ) (i : ℕ) : FragUser :=
  if i < 4 then
    { id := i, service_type := SClass.URLLC, demand := ((5 + dem i % 10 : ℕ) : ℤ)
      deadline := ((3 + dl i % 3 : ℕ) : ℤ), weight := 10, allocated := 0 }
  else if i < 8 then
    { id := i, service_type := SClass.eMBB, demand := ((15 + dem i % 15 : ℕ) : ℤ)
      deadline := ((10 + dl i % 10 : ℕ) : ℤ), weight := 5, allocated := 0 }
  else
    { id := i, service_type := SClass.mMTC, demand := ((3 + dem i % 7 : ℕ) : ℤ)
      deadline := ((30 + dl i % 20 : ℕ) : ℤ), weight := 1, allocated := 0 }

/-- Composite score `weight * (1/deadline) + 1/(allocated + 1)`. -/
def fragScore (u : FragUser) : ℚ :=
  u.weight * (1 / (u.deadline : ℚ)) + 1 / ((u.allocated : ℚ) + 1)

/-- One step of the clustering pass: fragment `f` (as an `(index, freq)`
pair) joins the first existing cluster containing a fragment within 150
frequency units, else opens a new cluster at the end of the list. -/
def addToCluster (cls : List (List (ℕ × ℤ))) (f : ℕ × ℤ) : List (List (ℕ × ℤ)) :=
  match cls with
  | [] => [[f]]
  | c :: rest =>
    if c.any fun g => decide (|f.2 - g.2| < 150) then (c ++ [f]) :: rest
    else c :: addToCluster rest f

/-- The per-slot clustering of the fragment list by frequency proximity
(fragments are carried as `(index, center_freq)` pairs; only the frequency,
which never mutates, enters the grouping). -/
def clusterFragments (frags : List Fragment) : List (List (ℕ × ℤ)) :=
  (frags.map fun f => (f.id, f.center_freq)).foldl addToCluster []

/-- The clusters reduced to fragment indices, in visit order. -/
def clusterIndexLists (frags : List Fragment) : List (List ℕ) :=
  (clusterFragments frags).map (List.map Prod.fst)

/-- Greedy consumption of one user's remaining demand along a list of
fragment indices into the capacity list `caps` (mutation of
`frag['capacity']` modelled by positional update): at each fragment, while
demand remains, allocate `min(remaining, capacity)`.  Returns the updated
capacities and the total allocated to this user. -/
def allocIdx : List ℤ → List ℕ → ℤ → List ℤ × ℤ
  | caps, [], _ => (caps, 0)
  | caps, i :: is, rem =>
    if rem ≤ 0 then (caps, 0)
    else
      let available := caps.getD i 0
      let allocated := min rem available
      let r := allocIdx (caps.set i (available - allocated)) is (rem - allocated)
      (r.1, allocated + r.2)

/-- Clustered consumption: iterate clusters in creation order (breaking once
demand is met), within each cluster iterate its fragments (the computed
`cluster_capacity` of the source is never read and is omitted). -/
def allocClusters : List ℤ → List (List ℕ) → ℤ → List ℤ × ℤ
  | caps, [], _ => (caps, 0)
  | caps, c :: cs, rem =>
    if rem ≤ 0 then (caps, 0)
    else
      let r1 := allocIdx caps c rem
      let r2 := allocClusters r1.1 cs (rem - r1.2)
      (r2.1, r1.2 + r2.2)

/-- Allocation loop over the (sorted) users in non-clustering mode: each
user greedily consumes along the fixed fragment order. -/
def allocUsersFlat (idxs : List ℕ) : List FragUser → List ℤ → List FragUser × List ℤ
  | [], caps => ([], caps)
  | u :: us, caps =>
    let r := allocIdx caps idxs (u.demand - u.allocated)
    let rest := allocUsersFlat idxs us r.1
    ({ u with allocated := u.allocated + r.2 } :: rest.1, rest.2)

/-- Allocation loop over the (sorted) users in clustering mode. -/
def allocUsersClustered (cls : List (List ℕ)) : List FragUser → List ℤ → List FragUser × List ℤ
  | [], caps => ([], caps)
  | u :: us, caps =>
    let r := allocClusters caps cls (u.demand - u.allocated)
    let rest := allocUsersClustered cls us r.1
    ({ u with allocated := u.allocated + r.2 } :: rest.1, rest.2)

/-- Everything one FRAG slot produces: the served users, the fragment
capacities at the end of the allocation (before the reset to nominal), and
the three per-slot metric samples. -/
structure FragSlotOut where
  users : List FragUser
  capsAfter : List ℤ
  utilization : ℚ
  throughput : ℚ
  urllc_compliance : ℚ
deriving DecidableEq, Repr

/-- One slot of `simulate_fragmentation_aware`: regenerate the 12 users,
sort them by descending score (Python's stable `list.sort`), allocate in the
chosen mode starting from the nominal capacities (which are reset at every
slot's end in the source, so each slot starts from nominal), and compute the
slot metrics with `original_total_capacity = 50 + 40 + 30 + 35 = 155`. -/
def fragSlot (clustering : Bool) (dem dl : ℕ → ℕ) : FragSlotOut :=
  let users1 := ((List.range 12).map (mkFragUser dem dl)).mergeSort
    fun a b => decide (fragScore b ≤ fragScore a)
  let ar :=
    match clustering with
    | true =>
      allocUsersClustered (clusterIndexLists initFragments) users1
        (initFragments.map Fragment.capacity)
    | false =>
      allocUsersFlat (List.range initFragments.length) users1
        (initFragments.map Fragment.capacity)
  let total_allocated := (ar.1.map FragUser.allocated).sum
  let urllc_users := ar.1.filter fun u => u.service_type == SClass.URLLC
  { users := ar.1
    capsAfter := ar.2
    utilization := (total_allocated : ℚ) / 155 * 100
    throughput := (total_allocated : ℚ)
    urllc_compliance :=
      ((urllc_users.filter fun u => decide (u.demand ≤ u.allocated)).length : ℚ)
        / ((max urllc_users.length 1 : ℕ) : ℚ) * 100 }

/-- The main loop of `simulate_fragmentation_aware`, collecting the
utilization, throughput and URLLC-compliance histories. -/
def fragRun (clustering : Bool) (d : FragDraws) (numSlots : ℕ) : List ℚ × List ℚ × List ℚ :=
  (List.range numSlots).foldl
    (fun acc slot =>
      let o := fragSlot clustering (d.demandRaw slot) (d.deadlineRaw slot)
      (acc.1 ++ [o.utilization], acc.2.1 ++ [o.throughput], acc.2.2 ++ [o.urllc_compliance]))
    ([], [], [])

/-- Return value of `simulate_fragmentation_aware`; the three scalar
aggregates are `np.mean` of per-slot series, NaN (`none`) when no slot ran. -/
structure FragResult where
  spectrum_utilization : Option ℚ
  avg_throughput : Option ℚ
  urllc_compliance : Option ℚ
  util_history : List ℚ
  throughput_history : List ℚ
deriving DecidableEq, Repr

/-- `simulate_fragmentation_aware`. -/
def simulate_fragmentation_aware (clustering : Bool) (numSlots : ℕ) (d : FragDraws) :
    FragResult :=
  let h := fragRun clustering d numSlots
  { spectrum_utilization := npMean h.1
    avg_throughput := npMean h.2.1
    urllc_compliance := npMean h.2.2
    util_history := lastN 50 h.1
    throughput_history := lastN 50 h.2.1 }

/-- All-zero FRAG draw stream. -/
def fragZeroDraws : FragDraws :=
  { demandRaw := fun _ _ => 0, deadlineRaw := fun _ _ => 0 }

/-! ### Conservation of the greedy allocation -/

theorem sum_set_int : ∀ (l : List ℤ) (i : ℕ), i < l.length → ∀ a : ℤ,
    (l.set i a).sum + l.getD i 0 = l.sum + a := by
  intro l
  induction l with
  | nil => intro i h; simp at h
  | cons x xs ih =>
      intro i h a
      cases i with
      | zero =>
          simp only [List.set_cons_zero, List.sum_cons, List.getD_cons_zero]
          omega
      | succ n =>
          simp only [List.set_cons_succ, List.sum_cons, List.getD_cons_succ]
          have := ih n (by simpa using h) a
          omega

/-- Greedy consumption along valid fragment indices conserves capacity: the
capacity removed from the fragments equals the amount credited to the user,
capacities stay non-negative, and the credited amount is non-negative. -/
theorem allocIdx_spec : ∀ (idxs : List ℕ) (caps : List ℤ) (rem : ℤ),
    (∀ i ∈ idxs, i < caps.length) → (∀ c ∈ caps, 0 ≤ c) →
    (allocIdx caps idxs rem).1.length = caps.length ∧
    (allocIdx caps idxs rem).1.sum + (allocIdx caps idxs rem).2 = caps.sum ∧
    (∀ c ∈ (allocIdx caps idxs rem).1, 0 ≤ c) ∧
    0 ≤ (allocIdx caps idxs rem).2 := by
  intro idxs
  induction idxs with
  | nil =>
      intro caps rem _ hc
      exact ⟨rfl, by simp [allocIdx], hc, le_refl 0⟩
  | cons i is ih =>
      intro caps rem hv hc
      by_cases hrem : rem ≤ 0
      · simp only [allocIdx, if_pos hrem]
        exact ⟨by simp, by simp, hc, by simp⟩
      · simp only [allocIdx, if_neg hrem]
        have hi : i < caps.length := hv i (List.mem_cons_self i is)
        have hmin : min rem (caps.getD i 0) ≤ caps.getD i 0 := min_le_right _ _
        have hd : caps.getD i 0 ∈ caps := by
          rw [List.getD_eq_getElem caps 0 hi]
          exact List.getElem_mem hi
        have ha : 0 ≤ min rem (caps.getD i 0) := le_min (by omega) (hc _ hd)
        have hset : ∀ c ∈ caps.set i (caps.getD i 0 - min rem (caps.getD i 0)), 0 ≤ c := by
          intro c hcm
          rcases List.mem_or_eq_of_mem_set hcm with h | h
          · exact hc c h
          · omega
        obtain ⟨ihl, ihs, ihc, iht⟩ :=
          ih (caps.set i (caps.getD i 0 - min rem (caps.getD i 0)))
            (rem - min rem (caps.getD i 0))
            (fun j hj => by
              rw [List.length_set]
              exact hv j (List.mem_cons_of_mem i hj))
            hset
        have hss := sum_set_int caps i hi (caps.getD i 0 - min rem (caps.getD i 0))
        refine ⟨by rw [ihl, List.length_set], by omega, by simpa using ihc, by omega⟩

/-- Consumption at non-positive remaining demand is a no-op. -/
theorem allocIdx_nonpos (caps : List ℤ) (idxs : List ℕ) (rem : ℤ) (h : rem ≤ 0) :
    allocIdx caps idxs rem = (caps, 0) := by
  cases idxs with
  | nil => rfl
  | cons i is => simp [allocIdx, if_pos h]

/-- Splitting a greedy consumption run over an appended index list. -/
theorem allocIdx_append : ∀ (xs ys : List ℕ) (caps : List ℤ) (rem : ℤ),
    allocIdx caps (xs ++ ys) rem
      = ((allocIdx (allocIdx caps xs rem).1 ys (rem - (allocIdx caps xs rem).2)).1,
         (allocIdx caps xs rem).2
           + (allocIdx (allocIdx caps xs rem).1 ys (rem - (allocIdx caps xs rem).2)).2) := by
  intro xs
  induction xs with
  | nil => intro ys caps rem; simp [allocIdx]
  | cons i is ih =>
      intro ys caps rem
      rw [List.cons_append]
      by_cases h : rem ≤ 0
      · simp only [allocIdx, if_pos h]
        rw [allocIdx_nonpos _ _ _ (by omega)]
        simp
      · simp only [allocIdx, if_neg h]
        rw [ih]
        rw [sub_sub, add_assoc]

/-- The nested cluster loop of the clustering branch visits fragments in
exactly flattened-cluster order. -/
theorem allocClusters_eq_flat : ∀ (cls : List (List ℕ)) (caps : List ℤ) (rem : ℤ),
    allocClusters caps cls rem = allocIdx caps cls.flatten rem := by
  intro cls
  induction cls with
  | nil => intro caps rem; rfl
  | cons c cs ih =>
      intro caps rem
      rw [List.flatten_cons]
      by_cases h : rem ≤ 0
      · simp only [allocClusters, if_pos h]
        rw [allocIdx_nonpos _ _ _ h]
      · simp only [allocClusters, if_neg h]
        rw [ih, allocIdx_append]

/-- The user loop of the clustering branch coincides with the flat user loop
over the flattened cluster order. -/
theorem allocUsersClustered_eq_flat (cls : List (List ℕ)) :
    ∀ (us : List FragUser) (caps : List ℤ),
      allocUsersClustered cls us caps = allocUsersFlat cls.flatten us caps := by
  intro us
  induction us with
  | nil => intro caps; rfl
  | cons u us ih =>
      intro caps
      simp only [allocUsersClustered, allocUsersFlat, allocClusters_eq_flat, ih]

/-- Conservation over the whole user loop (flat mode): final capacities plus
everything credited to users equals initial capacities plus prior credits;
capacities and credits stay non-negative. -/
theorem allocUsersFlat_spec (idxs : List ℕ) :
    ∀ (us : List FragUser) (caps : List ℤ),
      (∀ i ∈ idxs, i < caps.length) → (∀ c ∈ caps, 0 ≤ c) →
      (∀ u ∈ us, 0 ≤ u.allocated) →
      (allocUsersFlat idxs us caps).2.length = caps.length ∧
      (allocUsersFlat idxs us caps).2.sum
          + ((allocUsersFlat idxs us caps).1.map FragUser.allocated).sum
        = caps.sum + (us.map FragUser.allocated).sum ∧
      (∀ c ∈ (allocUsersFlat idxs us caps).2, 0 ≤ c) ∧
      (∀ u ∈ (allocUsersFlat idxs us caps).1, 0 ≤ u.allocated) := by
  intro us
  induction us with
  | nil =>
      intro caps _ hc _
      exact ⟨rfl, by simp [allocUsersFlat], hc, by intro u hu; simp [allocUsersFlat] at hu⟩
  | cons u us ih =>
      intro caps hv hc hall
      obtain ⟨hl1, hs1, hc1, ht1⟩ := allocIdx_spec idxs caps (u.demand - u.allocated) hv hc
      obtain ⟨ihl, ihs, ihc, ihall⟩ :=
        ih (allocIdx caps idxs (u.demand - u.allocated)).1
          (fun i hi => by rw [hl1]; exact hv i hi) hc1
          (fun v hv' => hall v (List.mem_cons_of_mem u hv'))
      have hu0 : 0 ≤ u.allocated := hall u (List.mem_cons_self u us)
      simp only [allocUsersFlat, List.map_cons, List.sum_cons]
      refine ⟨by rw [ihl, hl1], by omega, ihc, ?_⟩
      intro v hv'
      rcases List.mem_cons.mp hv' with h | h
      · subst h; dsimp only; omega
      · exact ihall v h

theorem fragSlot_clustering_eq (dem dl : ℕ → ℕ) :
    fragSlot true dem dl = fragSlot false dem dl := by
  have hidx : (clusterIndexLists initFragments).flatten = List.range initFragments.length := by
    decide
  simp only [fragSlot]
  rw [allocUsersClustered_eq_flat, hidx]

theorem fragRun_clustering_eq (d : FragDraws) (n : ℕ) :
    fragRun true d n = fragRun false d n := by
  unfold fragRun
  simp only [fragSlot_clustering_eq]

/-- C8: with the fixed four fragments at frequencies 3500, 3600, 3800, 2600
and threshold 150, clustering always yields the clusters
`[fragment 0, fragment 1]`, `[fragment 2]`, `[fragment 3]` in that order, so
the flattened visit order under clustering equals the fixed fragment order
of the non-clustering branch; consequently, on the same draw stream,
`simulate_fragmentation_aware(True, n)` and
`simulate_fragmentation_aware(False, n)` agree in every field. -/
theorem frag_clustering_equiv (n : ℕ) (d : FragDraws) :
    clusterIndexLists initFragments = [[0, 1], [2], [3]] ∧
    (clusterIndexLists initFragments).flatten = List.range initFragments.length ∧
    simulate_fragmentation_aware true n d = simulate_fragmentation_aware false n d := by
  refine ⟨by decide, by decide, ?_⟩
  unfold simulate_fragmentation_aware
  rw [fragRun_clustering_eq]

theorem mkFragUser_allocated (dem dl : ℕ → ℕ) (i : ℕ) :
    (mkFragUser dem dl i).allocated = 0 := by
  unfold mkFragUser
  split_ifs <;> rfl

/-- Conservation of the non-clustering FRAG slot (helper shared by the
per-slot bound proofs). -/
theorem fragSlot_flat_conservation (dem dl : ℕ → ℕ) :
    (initFragments.map Fragment.capacity).sum - (fragSlot false dem dl).capsAfter.sum
      = ((fragSlot false dem dl).users.map FragUser.allocated).sum ∧
    ((fragSlot false dem dl).users.map FragUser.allocated).sum ≤ 155 ∧
    0 ≤ ((fragSlot false dem dl).users.map FragUser.allocated).sum ∧
    (fragSlot false dem dl).throughput
      = (((fragSlot false dem dl).users.map FragUser.allocated).sum : ℚ) ∧
    (fragSlot false dem dl).utilization
      = (((fragSlot false dem dl).users.map FragUser.allocated).sum : ℚ) / 155 * 100 := by
  have hzero : ∀ u ∈ ((List.range 12).map (mkFragUser dem dl)).mergeSort
      (fun a b => decide (fragScore b ≤ fragScore a)), u.allocated = 0 := by
    intro u hu
    have hu' := (List.mergeSort_perm ((List.range 12).map (mkFragUser dem dl))
      (fun a b => decide (fragScore b ≤ fragScore a))).mem_iff.mp hu
    obtain ⟨i, _, hi⟩ := List.mem_map.mp hu'
    rw [← hi]
    exact mkFragUser_allocated dem dl i
  obtain ⟨hl, hs, hcnn, hanns⟩ := allocUsersFlat_spec (List.range initFragments.length)
    (((List.range 12).map (mkFragUser dem dl)).mergeSort
      (fun a b => decide (fragScore b ≤ fragScore a)))
    (initFragments.map Fragment.capacity)
    (by decide) (by decide)
    (fun u hu => le_of_eq (hzero u hu).symm)
  have hsum0 : ((((List.range 12).map (mkFragUser dem dl)).mergeSort
      (fun a b => decide (fragScore b ≤ fragScore a))).map FragUser.allocated).sum = 0 := by
    apply List.sum_eq_zero
    intro x hx
    obtain ⟨u, hu, hux⟩ := List.mem_map.mp hx
    rw [← hux]
    exact hzero u hu
  have h155 : (initFragments.map Fragment.capacity).sum = 155 := by decide
  have hc0 : 0 ≤ (allocUsersFlat (List.range initFragments.length)
      (((List.range 12).map (mkFragUser dem dl)).mergeSort
        (fun a b => decide (fragScore b ≤ fragScore a)))
      (initFragments.map Fragment.capacity)).2.sum := List.sum_nonneg hcnn
  have ha0 : 0 ≤ ((allocUsersFlat (List.range initFragments.length)
      (((List.range 12).map (mkFragUser dem dl)).mergeSort
        (fun a b => decide (fragScore b ≤ fragScore a)))
      (initFragments.map Fragment.capacity)).1.map FragUser.allocated).sum := by
    apply List.sum_nonneg
    intro x hx
    obtain ⟨u, hu, hux⟩ := List.mem_map.mp hx
    rw [← hux]
    exact hanns u hu
  simp only [fragSlot]
  refine ⟨by omega, by omega, ha0, ?_, ?_⟩ <;> first | rfl | trivial

/-- C6: in every non-clustering FRAG slot, the total fragment capacity
consumed (nominal sum 155 minus the end-of-allocation capacities) equals the
sum of the users' `allocated` counters, is at most 155 and non-negative, and
is exactly the `total_allocated` from which the slot's throughput and
utilization metrics are computed. -/
theorem frag_alloc_conservation (dem dl : ℕ → ℕ) :
    (initFragments.map Fragment.capacity).sum - (fragSlot false dem dl).capsAfter.sum
      = ((fragSlot false dem dl).users.map FragUser.allocated).sum ∧
    ((fragSlot false dem dl).users.map FragUser.allocated).sum ≤ 155 ∧
    0 ≤ ((fragSlot false dem dl).users.map FragUser.allocated).sum ∧
    (fragSlot false dem dl).throughput
      = (((fragSlot false dem dl).users.map FragUser.allocated).sum : ℚ) ∧
    (fragSlot false dem dl).utilization
      = (((fragSlot false dem dl).users.map FragUser.allocated).sum : ℚ) / 155 * 100 :=
  fragSlot_flat_conservation dem dl

theorem utilPct_bounds (ta : ℤ) (h0 : 0 ≤ ta) (h155 : ta ≤ 155) :
    0 ≤ (ta : ℚ) / 155 * 100 ∧ (ta : ℚ) / 155 * 100 ≤ 100 := by
  have hq0 : (0 : ℚ) ≤ (ta : ℚ) := by exact_mod_cast h0
  have hq1 : (ta : ℚ) ≤ 155 := by exact_mod_cast h155
  constructor
  · positivity
  · have hdiv : (ta : ℚ) / 155 ≤ 1 := div_le_one_of_le₀ hq1 (by norm_num)
    calc (ta : ℚ) / 155 * 100 ≤ 1 * 100 := mul_le_mul_of_nonneg_right hdiv (by norm_num)
      _ = 100 := by norm_num

/-- Per-slot metric bounds for FRAG: utilization and URLLC compliance are
percentages in [0, 100] in both allocation modes. -/
theorem fragSlot_bounds (c : Bool) (dem dl : ℕ → ℕ) :
    (0 ≤ (fragSlot c dem dl).utilization ∧ (fragSlot c dem dl).utilization ≤ 100) ∧
    (0 ≤ (fragSlot c dem dl).urllc_compliance ∧
      (fragSlot c dem dl).urllc_compliance ≤ 100) := by
  have hfalse : ∀ dem' dl' : ℕ → ℕ,
      (0 ≤ (fragSlot false dem' dl').utilization ∧
        (fragSlot false dem' dl').utilization ≤ 100) ∧
      (0 ≤ (fragSlot false dem' dl').urllc_compliance ∧
        (fragSlot false dem' dl').urllc_compliance ≤ 100) := by
    intro dem' dl'
    obtain ⟨hcons, hle, hge, _, hutil⟩ := fragSlot_flat_conservation dem' dl'
    constructor
    · rw [hutil]
      exact utilPct_bounds _ hge hle
    · simp only [fragSlot]
      exact ratePct_bounds _ _ (List.length_filter_le _ _)
  cases c
  · exact hfalse dem dl
  · rw [fragSlot_clustering_eq]
    exact hfalse dem dl

/-- Master invariant of the FRAG loop: the three histories gain one sample
per slot, and the utilization and compliance samples all lie in [0, 100]. -/
theorem fragRun_spec (c : Bool) (d : FragDraws) : ∀ n : ℕ,
    (fragRun c d n).1.length = n ∧
    (fragRun c d n).2.1.length = n ∧
    (fragRun c d n).2.2.length = n ∧
    (∀ x ∈ (fragRun c d n).1, 0 ≤ x ∧ x ≤ 100) ∧
    (∀ x ∈ (fragRun c d n).2.2, 0 ≤ x ∧ x ≤ 100) := by
  intro n
  induction n with
  | zero =>
      refine ⟨rfl, rfl, rfl, ?_, ?_⟩ <;> intro x hx <;> simp [fragRun] at hx
  | succ n ih =>
      obtain ⟨h1, h2, h3, h4, h5⟩ := ih
      have hstep : fragRun c d (n + 1)
          = ((fragRun c d n).1 ++ [(fragSlot c (d.demandRaw n) (d.deadlineRaw n)).utilization],
             (fragRun c d n).2.1
               ++ [(fragSlot c (d.demandRaw n) (d.deadlineRaw n)).throughput],
             (fragRun c d n).2.2
               ++ [(fragSlot c (d.demandRaw n) (d.deadlineRaw n)).urllc_compliance]) := by
        unfold fragRun
        rw [List.range_succ, List.foldl_append]
        simp only [List.foldl_cons, List.foldl_nil]
      rw [hstep]
      obtain ⟨hu, hc'⟩ := fragSlot_bounds c (d.demandRaw n) (d.deadlineRaw n)
      refine ⟨by simp [h1], by simp [h2], by simp [h3], ?_, ?_⟩
      · intro x hx
        rcases List.mem_append.mp hx with hx | hx
        · exact h4 x hx
        · have : x = (fragSlot c (d.demandRaw n) (d.deadlineRaw n)).utilization := by
            simpa using hx
          subst this
          exact hu
      · intro x hx
        rcases List.mem_append.mp hx with hx | hx
        · exact h5 x hx
        · have : x = (fragSlot c (d.demandRaw n) (d.deadlineRaw n)).urllc_compliance := by
            simpa using hx
          subst this
          exact hc'

/-! ### Invariants of the DAS loop -/

theorem length_filter_split (ps : List Packet) :
    (ps.filter fun p => 0 < p.remaining_time).length
      + (ps.filter fun p => p.remaining_time ≤ 0).length = ps.length := by
  induction ps with
  | nil => rfl
  | cons p ps ih =>
      simp only [List.filter_cons]
      by_cases h : 0 < p.remaining_time
      · have h2 : ¬ p.remaining_time ≤ 0 := by omega
        simp [h, h2]
        omega
      · have h2 : p.remaining_time ≤ 0 := by omega
        simp [h, h2]
        omega

/-- Case analysis of the selection/service phase: either nothing is served
(no users, or the winner's queue is empty), or the winner `si` has its head
packet popped, with exactly the recorded update. -/
theorem dasSelect_spec (beta : ℚ) (us2 : List UserSt) :
    ((dasSelect beta us2).1 = us2 ∧ (dasSelect beta us2).2.txUser = none ∧
      (dasSelect beta us2).2.txRemaining = none) ∨
    (∃ si v p rest, (dasSelect beta us2).2.txUser = some si ∧ si < us2.length ∧
      us2.get? si = some v ∧ v.packets = p :: rest ∧
      (dasSelect beta us2).2.txRemaining = some p.remaining_time ∧
      (dasSelect beta us2).1 = us2.set si
        { v with
          packets := rest
          delays := v.delays ++ [(v.pdb : ℤ) - p.remaining_time]
          avg_throughput := 9 / 10 * v.avg_throughput + 1 / 10 * p.size }) := by
  unfold dasSelect
  cases hfa : firstArgmax (us2.map (dasPriority beta)) with
  | none => exact Or.inl ⟨rfl, rfl, rfl⟩
  | some si =>
      have hsi : si < us2.length := by simpa using firstArgmax_lt hfa
      have hget : us2.get? si = some (us2.get ⟨si, hsi⟩) := List.get?_eq_get hsi
      dsimp only
      unfold transmitStep
      rw [hget]
      dsimp only
      cases hp : (us2.get ⟨si, hsi⟩).packets with
      | nil => exact Or.inl ⟨rfl, rfl, rfl⟩
      | cons p rest =>
          exact Or.inr ⟨si, us2.get ⟨si, hsi⟩, p, rest, rfl, hsi, hget, hp, rfl, rfl⟩

/-- What the arrival and aging phases do to the user at position `i`. -/
theorem arrAge_at (arr : ℕ → Bool) (sz : ℕ → ℚ) (us : List UserSt) (i : ℕ)
    (hi : i < us.length) :
    ∃ u v, us.get? i = some u ∧ (ageStep (arrivalStep arr sz us)).get? i = some v ∧
      v.packets.length = u.packets.length + (if arr u.id then 1 else 0) ∧
      v.timeouts = u.timeouts ∧ v.delays = u.delays ∧
      v.totalPackets = u.totalPackets + (if arr u.id then 1 else 0) ∧
      v.pdb = u.pdb ∧ v.id = u.id ∧ v.service_type = u.service_type := by
  have hget : us.get? i = some (us.get ⟨i, hi⟩) := List.get?_eq_get hi
  have hv : (ageStep (arrivalStep arr sz us)).get? i
      = Option.map
          (fun u =>
            { u with
              packets := u.packets.map fun p =>
                { p with remaining_time := p.remaining_time - 1 } })
          (Option.map
            (fun u =>
              if arr u.id then
                { u with
                  packets := u.packets
                    ++ [{ remaining_time := (u.pdb : ℤ), size := sz u.id }]
                  totalPackets := u.totalPackets + 1 }
              else u)
            (us.get? i)) := by
    unfold ageStep arrivalStep
    rw [List.get?_map, List.get?_map]
  rw [hget] at hv
  simp only [Option.map_some'] at hv
  refine ⟨us.get ⟨i, hi⟩, _, hget, hv, ?_, ?_, ?_, ?_, ?_, ?_, ?_⟩
  all_goals by_cases ha : arr us[i].id
  all_goals simp [ha, List.length_map, List.length_append]

/-- The sweep and channel phases at position `i`: the sum of queue length
and timeout counter is conserved, the timeout counter does not decrease, and
all other bookkeeping fields are untouched. -/
theorem sweepChan_at (st : ℕ → ℚ) (X : List UserSt) (i : ℕ) (w : UserSt)
    (hw : X.get? i = some w) :
    ∃ y, (channelStep st (sweepStep X)).get? i = some y ∧
      y.packets.length + y.timeouts = w.packets.length + w.timeouts ∧
      w.timeouts ≤ y.timeouts ∧
      y.delays = w.delays ∧ y.totalPackets = w.totalPackets ∧
      y.pdb = w.pdb ∧ y.id = w.id ∧ y.service_type = w.service_type := by
  have hs := length_filter_split w.packets
  have hy : (channelStep st (sweepStep X)).get? i
      = Option.map
          (fun u => { u with instantaneous_rate := max 1 (u.instantaneous_rate + st u.id) })
          (Option.map sweepUser (X.get? i)) := by
    unfold channelStep sweepStep
    rw [List.get?_map, List.get?_map]
  rw [hw] at hy
  simp only [Option.map_some'] at hy
  refine ⟨_, hy, ?_, ?_, rfl, rfl, rfl, rfl, rfl⟩
  · simp only [sweepUser]
    omega
  · simp only [sweepUser]
    omega

theorem dasSlot_length (beta : ℚ) (arr : ℕ → Bool) (sz : ℕ → ℚ) (st : ℕ → ℚ)
    (us : List UserSt) :
    (dasSlot beta arr sz st us).1.length = us.length := by
  unfold dasSlot
  dsimp only
  rcases dasSelect_spec beta (ageStep (arrivalStep arr sz us)) with
    ⟨h1, _, _⟩ | ⟨si, v, p, rest, _, _, _, _, _, h1⟩ <;>
    rw [h1] <;>
    simp [channelStep, sweepStep, ageStep, arrivalStep, List.length_set]

/-- The full per-slot ledger of `simulate_das` at user position `i`:
arrivals add one packet and one `total_packets` count, service removes at
most one packet and records exactly one delay for the served user, the
timeout sweep moves packets to the timeout counter one-for-one, and the
identity fields (`id`, `pdb`, `service_type`) persist. -/
theorem dasSlot_at (beta : ℚ) (arr : ℕ → Bool) (sz : ℕ → ℚ) (st : ℕ → ℚ)
    (us : List UserSt) (i : ℕ) (hi : i < us.length) :
    ∃ u u', us.get? i = some u ∧ (dasSlot beta arr sz st us).1.get? i = some u' ∧
      u'.packets.length + (if (dasSlot beta arr sz st us).2.txUser = some i then 1 else 0)
          + u'.timeouts
        = u.packets.length + (if arr u.id then 1 else 0) + u.timeouts ∧
      u'.delays.length
        = u.delays.length + (if (dasSlot beta arr sz st us).2.txUser = some i then 1 else 0) ∧
      u'.totalPackets = u.totalPackets + (if arr u.id then 1 else 0) ∧
      u'.pdb = u.pdb ∧ u'.id = u.id ∧ u'.service_type = u.service_type ∧
      u.timeouts ≤ u'.timeouts := by
  obtain ⟨u, v, hget, hv, hvp, hvt, hvd, hvtp, hvpdb, hvid, hvsc⟩ := arrAge_at arr sz us i hi
  unfold dasSlot
  dsimp only
  rcases dasSelect_spec beta (ageStep (arrivalStep arr sz us)) with
    ⟨h1, h2, h3⟩ | ⟨si, w, p, rest, h2, hsilt, hwget, hwp, h3, h1⟩
  · rw [h1, h2]
    obtain ⟨y, hy, hyc, hyt, hyd, hytp, hypdb, hyid, hysc⟩ := sweepChan_at st _ i v hv
    have h0 : (if (none : Option ℕ) = some i then 1 else 0) = 0 := by simp
    refine ⟨u, y, hget, hy, ?_, ?_, ?_, ?_, ?_, ?_, ?_⟩
    · rw [h0]; omega
    · rw [h0, hyd, hvd]; omega
    · rw [hytp, hvtp]
    · rw [hypdb, hvpdb]
    · rw [hyid, hvid]
    · rw [hysc, hvsc]
    · omega
  · rw [h1, h2]
    by_cases hsi : si = i
    · subst hsi
      have hwv : w = v := by
        have hcopy := hv
        rw [hwget] at hcopy
        exact Option.some.inj hcopy
      subst hwv
      have hm : ((ageStep (arrivalStep arr sz us)).set si
          { w with
            packets := rest
            delays := w.delays ++ [(w.pdb : ℤ) - p.remaining_time]
            avg_throughput := 9 / 10 * w.avg_throughput + 1 / 10 * p.size }).get? si
          = some
            { w with
              packets := rest
              delays := w.delays ++ [(w.pdb : ℤ) - p.remaining_time]
              avg_throughput := 9 / 10 * w.avg_throughput + 1 / 10 * p.size } := by
        rw [List.get?_set_eq, hwget]
        rfl
      obtain ⟨y, hy, hyc, hyt, hyd, hytp, hypdb, hyid, hysc⟩ := sweepChan_at st _ si _ hm
      dsimp only at hyc hyt hyd hytp hypdb hyid hysc
      have hii : ((if (some si : Option ℕ) = some si then 1 else 0) : ℕ) = 1 := if_pos rfl
      have hvpl : w.packets.length = rest.length + 1 := by rw [hwp]; rfl
      refine ⟨u, y, hget, hy, ?_, ?_, ?_, ?_, ?_, ?_, ?_⟩
      · rw [hii]; omega
      · rw [hii, hyd]
        simp [hvd]
      · rw [hytp, hvtp]
      · rw [hypdb, hvpdb]
      · rw [hyid, hvid]
      · rw [hysc, hvsc]
      · omega
    · have hne : ((if (some si : Option ℕ) = some i then 1 else 0) : ℕ) = 0 :=
        if_neg (by simp [hsi])
      have hm : ((ageStep (arrivalStep arr sz us)).set si
          { w with
            packets := rest
            delays := w.delays ++ [(w.pdb : ℤ) - p.remaining_time]
            avg_throughput := 9 / 10 * w.avg_throughput + 1 / 10 * p.size }).get? i
          = some v := by
        rw [List.get?_set_ne _ _ hsi]
        exact hv
      obtain ⟨y, hy, hyc, hyt, hyd, hytp, hypdb, hyid, hysc⟩ := sweepChan_at st _ i v hm
      refine ⟨u, y, hget, hy, ?_, ?_, ?_, ?_, ?_, ?_, ?_⟩
      · rw [hne]; omega
      · rw [hne, hyd, hvd]; omega
      · rw [hytp, hvtp]
      · rw [hypdb, hvpdb]
      · rw [hyid, hvid]
      · rw [hysc, hvsc]
      · omega

/-- C7: per-slot, per-user packet conservation in `simulate_das`: for every
user position `i`, the queue length at the end of the slot equals the queue
length at the start plus the 0/1 arrival indicator, minus the 0/1 indicator
of a transmission by that user, minus the number of its packets counted as
timeouts this slot (the growth of its timeout counter), stated
subtraction-free. -/
theorem das_packet_conservation (beta : ℚ) (arr : ℕ → Bool) (sz : ℕ → ℚ) (st : ℕ → ℚ)
    (us : List UserSt) (i : ℕ) (hi : i < us.length) :
    ∃ u u', us.get? i = some u ∧ (dasSlot beta arr sz st us).1.get? i = some u' ∧
      u.timeouts ≤ u'.timeouts ∧
      u'.packets.length + (if (dasSlot beta arr sz st us).2.txUser = some i then 1 else 0)
          + (u'.timeouts - u.timeouts)
        = u.packets.length + (if arr u.id then 1 else 0) := by
  obtain ⟨u, u', hget, hget', hc, _, _, _, _, _, ht⟩ := dasSlot_at beta arr sz st us i hi
  exact ⟨u, u', hget, hget', ht, by omega⟩

/-- A concrete one-user state used to instantiate the DAS slot theorems. -/
def dasWitnessUser : UserSt :=
  { id := 0
    service_type := SClass.URLLC
    instantaneous_rate := 10
    avg_throughput := 10
    packets := [{ remaining_time := 3, size := 2 }]
    pdb := 5
    timeouts := 0
    totalPackets := 1
    delays := [] }

/-- Witness for C7 at a concrete slot input. -/
theorem das_packet_conservation_witness :
    0 < [dasWitnessUser].length ∧
    ∃ u u', [dasWitnessUser].get? 0 = some u ∧
      (dasSlot (7 / 10) (fun _ => true) (fun _ => 1) (fun _ => 0) [dasWitnessUser]).1.get? 0
        = some u' ∧
      u.timeouts ≤ u'.timeouts ∧
      u'.packets.length
          + (if (dasSlot (7 / 10) (fun _ => true) (fun _ => 1) (fun _ => 0)
                [dasWitnessUser]).2.txUser = some 0 then 1 else 0)
          + (u'.timeouts - u.timeouts)
        = u.packets.length + (if (fun _ => true) u.id then 1 else 0) :=
  ⟨Nat.zero_lt_one,
   das_packet_conservation (7 / 10) (fun _ => true) (fun _ => 1) (fun _ => 0)
     [dasWitnessUser] 0 Nat.zero_lt_one⟩

/-- One DAS slot preserves the per-user ledger
`timeouts + queued + recorded delays = total_packets` — i.e. every arrived
packet is, at any time, in exactly one of the three states: still queued,
transmitted (delay recorded), or timed out. -/
theorem dasSlot_ledger (beta : ℚ) (arr : ℕ → Bool) (sz : ℕ → ℚ) (st : ℕ → ℚ)
    (us : List UserSt)
    (hled : ∀ u ∈ us, u.timeouts + u.packets.length + u.delays.length = u.totalPackets) :
    ∀ u' ∈ (dasSlot beta arr sz st us).1,
      u'.timeouts + u'.packets.length + u'.delays.length = u'.totalPackets := by
  intro u' hu'
  obtain ⟨n, hn⟩ := List.mem_iff_get.mp hu'
  have hj : (n : ℕ) < us.length := by
    have h2 := n.2
    have h3 := dasSlot_length beta arr sz st us
    omega
  obtain ⟨u, u'', hget, hget', hc, hd, htp, _, _, _, ht⟩ :=
    dasSlot_at beta arr sz st us n hj
  have hsome : (dasSlot beta arr sz st us).1.get? (n : ℕ) = some u' := by
    rw [List.get?_eq_get n.2]
    exact congrArg some hn
  rw [hsome] at hget'
  obtain rfl := Option.some.inj hget'
  have hmem : u ∈ us := by
    have hg := List.get?_eq_get hj
    rw [hg] at hget
    obtain rfl := Option.some.inj hget
    exact List.get_mem us _ hj
  have hl := hled u hmem
  omega

theorem dasSlot_packets_pos (beta : ℚ) (arr : ℕ → Bool) (sz : ℕ → ℚ) (st : ℕ → ℚ)
    (us : List UserSt) :
    ∀ u' ∈ (dasSlot beta arr sz st us).1, ∀ p ∈ u'.packets, 1 ≤ p.remaining_time := by
  intro u' hu' p hp
  unfold dasSlot at hu'
  dsimp only at hu'
  unfold channelStep at hu'
  obtain ⟨w, hw, rfl⟩ := List.mem_map.mp hu'
  dsimp only at hp
  unfold sweepStep at hw
  obtain ⟨x, hx, rfl⟩ := List.mem_map.mp hw
  simp only [sweepUser] at hp
  have := List.of_mem_filter hp
  simp at this
  omega

theorem arrAge_packets_nonneg (arr : ℕ → Bool) (sz : ℕ → ℚ) (us : List UserSt)
    (hpdb : ∀ u ∈ us, 1 ≤ u.pdb)
    (hinv : ∀ u ∈ us, ∀ p ∈ u.packets, 1 ≤ p.remaining_time) :
    ∀ v ∈ ageStep (arrivalStep arr sz us), ∀ p ∈ v.packets, 0 ≤ p.remaining_time := by
  intro v hv p hp
  unfold ageStep at hv
  obtain ⟨w, hw, rfl⟩ := List.mem_map.mp hv
  dsimp only at hp
  obtain ⟨q, hq, rfl⟩ := List.mem_map.mp hp
  dsimp only
  unfold arrivalStep at hw
  obtain ⟨u, hu, rfl⟩ := List.mem_map.mp hw
  by_cases ha : arr u.id
  · simp only [ha, if_true] at hq
    rcases List.mem_append.mp hq with hq | hq
    · have := hinv u hu q hq
      omega
    · have hq' : q = { remaining_time := (u.pdb : ℤ), size := sz u.id } := by simpa using hq
      subst hq'
      have := hpdb u hu
      dsimp only
      omega
  · simp only [ha, if_false] at hq
    have := hinv u hu q hq
    omega

theorem arrAge_length (arr : ℕ → Bool) (sz : ℕ → ℚ) (us : List UserSt) :
    (ageStep (arrivalStep arr sz us)).length = us.length := by
  simp [ageStep, arrivalStep]

/-- C9: every packet is dequeued exactly once and accounted exactly once —
after a slot every queued packet still has positive remaining time (so it
was not yet accounted) and the ledger `timeouts + queued + recorded delays =
total_packets` is preserved; the popped packet's remaining time is never
negative at selection, and when it is ≤ 0 (hence exactly 0) the packet is
accounted as a transmission whose recorded delay `pdb − rt` is ≥ the owner's
pdb, not as a timeout. -/
theorem das_exactly_once (beta : ℚ) (arr : ℕ → Bool) (sz : ℕ → ℚ) (st : ℕ → ℚ)
    (us : List UserSt)
    (hpdb : ∀ u ∈ us, 1 ≤ u.pdb)
    (hinv : ∀ u ∈ us, ∀ p ∈ u.packets, 1 ≤ p.remaining_time)
    (hled : ∀ u ∈ us, u.timeouts + u.packets.length + u.delays.length = u.totalPackets) :
    (∀ u' ∈ (dasSlot beta arr sz st us).1, ∀ p ∈ u'.packets, 1 ≤ p.remaining_time) ∧
    (∀ u' ∈ (dasSlot beta arr sz st us).1,
       u'.timeouts + u'.packets.length + u'.delays.length = u'.totalPackets) ∧
    (∀ rt, (dasSlot beta arr sz st us).2.txRemaining = some rt → 0 ≤ rt) ∧
    (∀ i rt, (dasSlot beta arr sz st us).2.txUser = some i →
       (dasSlot beta arr sz st us).2.txRemaining = some rt → rt ≤ 0 →
       ∃ u u', us.get? i = some u ∧ (dasSlot beta arr sz st us).1.get? i = some u' ∧
         u'.delays = u.delays ++ [(u.pdb : ℤ) - rt] ∧ (u.pdb : ℤ) ≤ (u.pdb : ℤ) - rt) := by
  refine ⟨dasSlot_packets_pos beta arr sz st us, dasSlot_ledger beta arr sz st us hled,
    ?_, ?_⟩
  · intro rt hrt
    unfold dasSlot at hrt
    dsimp only at hrt
    rcases dasSelect_spec beta (ageStep (arrivalStep arr sz us)) with
      ⟨_, _, h3⟩ | ⟨si, w, p, rest, h2, hsilt, hwget, hwp, h3, h1⟩
    · rw [h3] at hrt
      exact absurd hrt (by simp)
    · rw [h3] at hrt
      obtain rfl := Option.some.inj hrt
      have hwmem : w ∈ ageStep (arrivalStep arr sz us) := List.get?_mem hwget
      exact arrAge_packets_nonneg arr sz us hpdb hinv w hwmem p
        (by rw [hwp]; exact List.mem_cons_self _ _)
  · intro i rt h2' h3' hrt0
    unfold dasSlot at h2' h3' ⊢
    dsimp only at h2' h3' ⊢
    rcases dasSelect_spec beta (ageStep (arrivalStep arr sz us)) with
      ⟨_, h2, _⟩ | ⟨si, w, p, rest, h2, hsilt, hwget, hwp, h3, h1⟩
    · rw [h2] at h2'
      exact absurd h2' (by simp)
    · rw [h2] at h2'
      obtain rfl := Option.some.inj h2'
      rw [h3] at h3'
      obtain rfl := Option.some.inj h3'
      have hi : si < us.length := by
        have h4 := hsilt
        rwa [arrAge_length] at h4
      obtain ⟨u, v, hget, hv, hvp, hvt, hvd, hvtp, hvpdb, hvid, hvsc⟩ :=
        arrAge_at arr sz us si hi
      have hwv : w = v := by
        have hcopy := hv
        rw [hwget] at hcopy
        exact Option.some.inj hcopy
      subst hwv
      rw [h1]
      have hm : ((ageStep (arrivalStep arr sz us)).set si
          { w with
            packets := rest
            delays := w.delays ++ [(w.pdb : ℤ) - p.remaining_time]
            avg_throughput := 9 / 10 * w.avg_throughput + 1 / 10 * p.size }).get? si
          = some
            { w with
              packets := rest
              delays := w.delays ++ [(w.pdb : ℤ) - p.remaining_time]
              avg_throughput := 9 / 10 * w.avg_throughput + 1 / 10 * p.size } := by
        rw [List.get?_set_eq, hwget]
        rfl
      obtain ⟨y, hy, hyc, hyt, hyd, hytp, hypdb, hyid, hysc⟩ := sweepChan_at st _ si _ hm
      dsimp only at hyd
      refine ⟨u, y, hget, hy, ?_, by omega⟩
      rw [hyd, hvd, hvpdb]

/-- Witness for C9 at a concrete slot input. -/
theorem das_exactly_once_witness :
    (∀ u ∈ [dasWitnessUser], 1 ≤ u.pdb) ∧
    (∀ u ∈ [dasWitnessUser], ∀ p ∈ u.packets, 1 ≤ p.remaining_time) ∧
    (∀ u ∈ [dasWitnessUser],
       u.timeouts + u.packets.length + u.delays.length = u.totalPackets) ∧
    ((∀ u' ∈ (dasSlot (7 / 10) (fun _ => true) (fun _ => 1) (fun _ => 0)
        [dasWitnessUser]).1, ∀ p ∈ u'.packets, 1 ≤ p.remaining_time) ∧
     (∀ u' ∈ (dasSlot (7 / 10) (fun _ => true) (fun _ => 1) (fun _ => 0)
        [dasWitnessUser]).1,
        u'.timeouts + u'.packets.length + u'.delays.length = u'.totalPackets) ∧
     (∀ rt, (dasSlot (7 / 10) (fun _ => true) (fun _ => 1) (fun _ => 0)
        [dasWitnessUser]).2.txRemaining = some rt → 0 ≤ rt) ∧
     (∀ i rt, (dasSlot (7 / 10) (fun _ => true) (fun _ => 1) (fun _ => 0)
        [dasWitnessUser]).2.txUser = some i →
        (dasSlot (7 / 10) (fun _ => true) (fun _ => 1) (fun _ => 0)
          [dasWitnessUser]).2.txRemaining = some rt → rt ≤ 0 →
        ∃ u u', [dasWitnessUser].get? i = some u ∧
          (dasSlot (7 / 10) (fun _ => true) (fun _ => 1) (fun _ => 0)
            [dasWitnessUser]).1.get? i = some u' ∧
          u'.delays = u.delays ++ [(u.pdb : ℤ) - rt] ∧
          (u.pdb : ℤ) ≤ (u.pdb : ℤ) - rt)) :=
  ⟨by decide, by decide, by decide,
   das_exactly_once (7 / 10) (fun _ => true) (fun _ => 1) (fun _ => 0) [dasWitnessUser]
     (by decide) (by decide) (by decide)⟩

/-- Whole-run invariant of DAS: the ledger holds for every user after any
number of slots, and the history gains one sample per slot. -/
theorem dasRun_users (beta : ℚ) (d : DasDraws) (numUsers : ℕ) : ∀ numSlots : ℕ,
    (∀ u ∈ (dasRun beta d numSlots numUsers).1,
        u.timeouts + u.packets.length + u.delays.length = u.totalPackets) ∧
    (dasRun beta d numSlots numUsers).2.length = numSlots := by
  intro n
  induction n with
  | zero =>
      constructor
      · intro u hu
        obtain ⟨i, _, rfl⟩ := List.mem_map.mp hu
        simp [dasInitUser]
      · rfl
  | succ n ih =>
      obtain ⟨ihl, ihlen⟩ := ih
      have hstep : dasRun beta d (n + 1) numUsers
          = ((dasSlot beta (d.arrive n) (d.pktSize n) (d.chStep n)
                (dasRun beta d n numUsers).1).1,
             (dasRun beta d n numUsers).2
               ++ [(dasSlot beta (d.arrive n) (d.pktSize n) (d.chStep n)
                    (dasRun beta d n numUsers).1).2.transmitted_bytes]) := by
        unfold dasRun
        rw [List.range_succ, List.foldl_append]
        simp only [List.foldl_cons, List.foldl_nil]
      rw [hstep]
      exact ⟨dasSlot_ledger _ _ _ _ _ ihl, by simp [ihlen]⟩

/-- The URLLC timeout rate of `simulate_das` is a percentage in [0, 100] for
every input, because timeouts never exceed arrivals (by the ledger). -/
theorem das_timeout_rate_bounds (beta : ℚ) (numSlots numUsers : ℕ) (d : DasDraws) :
    0 ≤ (simulate_das beta numSlots numUsers d).urllc_timeout_rate ∧
    (simulate_das beta numSlots numUsers d).urllc_timeout_rate ≤ 100 := by
  obtain ⟨hled, _⟩ := dasRun_users beta d numUsers numSlots
  have hts : ((((dasRun beta d numSlots numUsers).1.filter
        fun u => u.service_type == SClass.URLLC).map UserSt.timeouts).sum)
      ≤ ((((dasRun beta d numSlots numUsers).1.filter
        fun u => u.service_type == SClass.URLLC).map UserSt.totalPackets).sum) := by
    apply List.sum_le_sum
    intro u hu
    have := hled u (List.mem_of_mem_filter hu)
    omega
  simp only [simulate_das]
  exact ratePct_bounds _ _ hts

/-- `np.mean` of a non-empty list of values in `[a, b]` is a value in
`[a, b]`. -/
theorem npMean_bounds {l : List ℚ} {a b : ℚ} (hne : l ≠ [])
    (h : ∀ x ∈ l, a ≤ x ∧ x ≤ b) :
    ∃ q, npMean l = some q ∧ a ≤ q ∧ q ≤ b := by
  have hlen : 0 < (l.length : ℚ) := by
    have hl : 0 < l.length := List.length_pos.mpr hne
    exact_mod_cast hl
  refine ⟨l.sum / (l.length : ℚ), ?_, ?_, ?_⟩
  · unfold npMean
    rw [if_neg (by simpa [List.isEmpty_iff] using hne)]
  · rw [le_div_iff₀ hlen]
    have hs := List.card_nsmul_le_sum l a fun x hx => (h x hx).1
    rwa [nsmul_eq_mul, mul_comm] at hs
  · rw [div_le_iff₀ hlen]
    have hs := List.sum_le_card_nsmul l b fun x hx => (h x hx).2
    rwa [nsmul_eq_mul, mul_comm] at hs

/-- C1 (refuting evidence, the code-side behaviour): at `num_slots = 0` the
unguarded `np.mean` calls of `simulate_csi_smoothing` and
`simulate_fragmentation_aware` yield NaN (`none`), not the 0.0 defaults the
defensive policy mandates; no exception is raised. -/
theorem zero_slots_unguarded_nan (alpha : ℚ) (numUsers : ℕ) (dc : CsiDraws)
    (c : Bool) (df : FragDraws) :
    (∃ r, simulate_csi_smoothing alpha 0 numUsers dc = some r ∧
       r.spectral_efficiency = none ∧ r.retransmission_rate = none) ∧
    (simulate_fragmentation_aware c 0 df).spectrum_utilization = none ∧
    (simulate_fragmentation_aware c 0 df).avg_throughput = none ∧
    (simulate_fragmentation_aware c 0 df).urllc_compliance = none :=
  ⟨⟨_, rfl, rfl, rfl⟩, rfl, rfl, rfl⟩

/-- C3 counterexample: at the valid input `num_slots = 0` the FRAG
aggregates are NaN (`none`), not values in [0, 100]; and at the valid input
`num_slots = 1, num_users = 0` the CSI simulator raises (`none`), so its
retransmission rate has no value at all. -/
theorem rate_bounds_counterexample :
    (simulate_fragmentation_aware false 0 fragZeroDraws).spectrum_utilization = none ∧
    (simulate_fragmentation_aware false 0 fragZeroDraws).urllc_compliance = none ∧
    simulate_csi_smoothing (1 / 5) 1 0 csiZeroDraws = none :=
  ⟨rfl, rfl, rfl⟩

/-- C3 (amended): for at least one slot (and, for CSI, at least one user)
all the claimed rates are percentages in [0, 100]; the DAS URLLC timeout
rate satisfies the bounds unconditionally. -/
theorem rate_bounds_amended (beta : ℚ) (numSlots numUsers : ℕ) (dd : DasDraws)
    (alpha : ℚ) (nc uc : ℕ) (dc : CsiDraws) (c : Bool) (nf : ℕ) (df : FragDraws)
    (hnc : 1 ≤ nc) (huc : 1 ≤ uc) (hnf : 1 ≤ nf) :
    (0 ≤ (simulate_das beta numSlots numUsers dd).urllc_timeout_rate ∧
      (simulate_das beta numSlots numUsers dd).urllc_timeout_rate ≤ 100) ∧
    (∃ q, (simulate_fragmentation_aware c nf df).spectrum_utilization = some q ∧
       0 ≤ q ∧ q ≤ 100) ∧
    (∃ q, (simulate_fragmentation_aware c nf df).urllc_compliance = some q ∧
       0 ≤ q ∧ q ≤ 100) ∧
    (∃ r q, simulate_csi_smoothing alpha nc uc dc = some r ∧
       r.retransmission_rate = some q ∧ 0 ≤ q ∧ q ≤ 100) := by
  obtain ⟨hf1, hf2, hf3, hf4, hf5⟩ := fragRun_spec c df nf
  refine ⟨das_timeout_rate_bounds beta numSlots numUsers dd, ?_, ?_, ?_⟩
  · exact npMean_bounds (by intro hc0; rw [hc0] at hf1; simp at hf1; omega) hf4
  · exact npMean_bounds (by intro hc0; rw [hc0] at hf3; simp at hf3; omega) hf5
  · obtain ⟨us, rrh, seh, hrun, _, _, hrl, _, hb⟩ := csiRun_spec alpha dc uc huc nc
    have hrne : rrh ≠ [] := by
      intro hc0
      rw [hc0] at hrl
      simp at hrl
      omega
    obtain ⟨q, hq, hq0, hq100⟩ := npMean_bounds hrne hb
    have hsim : simulate_csi_smoothing alpha nc uc dc
        = some
          { spectral_efficiency := npMean seh
            retransmission_rate := npMean rrh
            se_history := lastN 50 seh
            retrans_history := lastN 50 rrh } := by
      simp only [simulate_csi_smoothing]
      rw [hrun]
    exact ⟨_, q, hsim, hq, hq0, hq100⟩

/-- Witness for C3 (amended) at concrete inputs. -/
theorem rate_bounds_amended_witness :
    (1 ≤ 1 ∧ 1 ≤ 1 ∧ 1 ≤ 1) ∧
    ((0 ≤ (simulate_das 0 1 1 dasZeroDraws).urllc_timeout_rate ∧
       (simulate_das 0 1 1 dasZeroDraws).urllc_timeout_rate ≤ 100) ∧
     (∃ q, (simulate_fragmentation_aware false 1 fragZeroDraws).spectrum_utilization
         = some q ∧ 0 ≤ q ∧ q ≤ 100) ∧
     (∃ q, (simulate_fragmentation_aware false 1 fragZeroDraws).urllc_compliance
         = some q ∧ 0 ≤ q ∧ q ≤ 100) ∧
     (∃ r q, simulate_csi_smoothing (1 / 5) 1 1 csiZeroDraws = some r ∧
        r.retransmission_rate = some q ∧ 0 ≤ q ∧ q ≤ 100)) :=
  ⟨⟨le_refl 1, le_refl 1, le_refl 1⟩,
   rate_bounds_amended 0 1 1 dasZeroDraws (1 / 5) 1 1 csiZeroDraws false 1 fragZeroDraws
     (le_refl 1) (le_refl 1) (le_refl 1)⟩

/-- C4: history truncation — with 200 slots every returned history array has
length exactly 50 (`l[-50:]`), with 10 slots length exactly 10, across all
three simulators (CSI requires at least one user to complete its run). -/
theorem simulate_das_hist_length (beta : ℚ) (n u : ℕ) (d : DasDraws) :
    (simulate_das beta n u d).throughput_history.length = n - (n - 50) := by
  have h := (dasRun_users beta d u n).2
  simp only [simulate_das, lastN]
  rw [List.length_drop, h]

theorem simulate_frag_hist_length (c : Bool) (n : ℕ) (d : FragDraws) :
    (simulate_fragmentation_aware c n d).util_history.length = n - (n - 50) ∧
    (simulate_fragmentation_aware c n d).throughput_history.length = n - (n - 50) := by
  obtain ⟨h1, h2, _, _, _⟩ := fragRun_spec c d n
  constructor
  · simp only [simulate_fragmentation_aware, lastN]
    rw [List.length_drop, h1]
  · simp only [simulate_fragmentation_aware, lastN]
    rw [List.length_drop, h2]

theorem simulate_csi_hist_length (alpha : ℚ) (n u : ℕ) (d : CsiDraws) (hu : 1 ≤ u) :
    ∃ r, simulate_csi_smoothing alpha n u d = some r ∧
      r.se_history.length = n - (n - 50) ∧ r.retrans_history.length = n - (n - 50) := by
  obtain ⟨us, rrh, seh, hrun, _, _, hrl, hsl, _⟩ := csiRun_spec alpha d u hu n
  have hsim : simulate_csi_smoothing alpha n u d
      = some
        { spectral_efficiency := npMean seh
          retransmission_rate := npMean rrh
          se_history := lastN 50 seh
          retrans_history := lastN 50 rrh } := by
    simp only [simulate_csi_smoothing]
    rw [hrun]
  refine ⟨_, hsim, ?_, ?_⟩
  · simp only [lastN]
    rw [List.length_drop, hsl]
  · simp only [lastN]
    rw [List.length_drop, hrl]

theorem history_truncation (beta alpha : ℚ) (numUsers : ℕ) (dd : DasDraws)
    (dc : CsiDraws) (c : Bool) (df : FragDraws) (hu : 1 ≤ numUsers) :
    (simulate_das beta 200 numUsers dd).throughput_history.length = 50 ∧
    (simulate_das beta 10 numUsers dd).throughput_history.length = 10 ∧
    (∃ r, simulate_csi_smoothing alpha 200 numUsers dc = some r ∧
       r.se_history.length = 50 ∧ r.retrans_history.length = 50) ∧
    (∃ r, simulate_csi_smoothing alpha 10 numUsers dc = some r ∧
       r.se_history.length = 10 ∧ r.retrans_history.length = 10) ∧
    (simulate_fragmentation_aware c 200 df).util_history.length = 50 ∧
    (simulate_fragmentation_aware c 200 df).throughput_history.length = 50 ∧
    (simulate_fragmentation_aware c 10 df).util_history.length = 10 ∧
    (simulate_fragmentation_aware c 10 df).throughput_history.length = 10 := by
  refine ⟨?_, ?_, ?_, ?_, ?_, ?_, ?_, ?_⟩
  · rw [simulate_das_hist_length]
  · rw [simulate_das_hist_length]
  · obtain ⟨r, hr, h1, h2⟩ := simulate_csi_hist_length alpha 200 numUsers dc hu
    exact ⟨r, hr, h1, h2⟩
  · obtain ⟨r, hr, h1, h2⟩ := simulate_csi_hist_length alpha 10 numUsers dc hu
    exact ⟨r, hr, h1, h2⟩
  · exact (simulate_frag_hist_length c 200 df).1
  · exact (simulate_frag_hist_length c 200 df).2
  · exact (simulate_frag_hist_length c 10 df).1
  · exact (simulate_frag_hist_length c 10 df).2

/-- Witness for C4 at concrete inputs. -/
theorem history_truncation_witness :
    1 ≤ 1 ∧
    ((simulate_das 0 200 1 dasZeroDraws).throughput_history.length = 50 ∧
     (simulate_das 0 10 1 dasZeroDraws).throughput_history.length = 10 ∧
     (∃ r, simulate_csi_smoothing (1 / 5) 200 1 csiZeroDraws = some r ∧
        r.se_history.length = 50 ∧ r.retrans_history.length = 50) ∧
     (∃ r, simulate_csi_smoothing (1 / 5) 10 1 csiZeroDraws = some r ∧
        r.se_history.length = 10 ∧ r.retrans_history.length = 10) ∧
     (simulate_fragmentation_aware false 200 fragZeroDraws).util_history.length = 50 ∧
     (simulate_fragmentation_aware false 200 fragZeroDraws).throughput_history.length = 50 ∧
     (simulate_fragmentation_aware false 10 fragZeroDraws).util_history.length = 10 ∧
     (simulate_fragmentation_aware false 10 fragZeroDraws).throughput_history.length = 10) :=
  ⟨le_refl 1,
   history_truncation 0 (1 / 5) 1 dasZeroDraws csiZeroDraws false fragZeroDraws (le_refl 1)⟩

end RanDemo
